import Mathlib

/-!
Verification development for the typescope repository (src/typescope/tree.py).
The Python data model and operations are shallowly embedded as executable Lean
definitions; CST nodes and Python objects are identified by natural-number ids
(object identity), machine hashing is modelled modulo 2 ^ 64, stateful methods
are embedded in explicit state-passing style, and raising code returns Except.
-/

set_option autoImplicit false

namespace Typescope

/-- Source position (class CodePos in tree.py): 1-based line, 0-based column. -/
structure CodePos where
  line : Nat
  column : Nat
  deriving DecidableEq

/-- Strict comparison of positions, mirroring CodePos.__lt__ in tree.py:
compare line first, then column on equal lines. -/
def CodePos.ltb (a b : CodePos) : Bool :=
  if a.line < b.line then true
  else if a.line = b.line then decide (a.column < b.column)
  else false

/-- Non-strict comparison, as derived by functools.total_ordering from
__lt__ and __eq__: a <= b iff a < b or a == b. -/
def CodePos.leb (a b : CodePos) : Bool :=
  a.ltb b || a == b

/-- Containment of a point in a half-open interval, as used by
IntervalTree.at: begin <= point < end. -/
def posContains (s e p : CodePos) : Bool :=
  s.leb p && p.ltb e

/-- Intersection of a half-open interval with a half-open query range, as
used by IntervalTree.overlap. -/
def overlapsB (s e qs qe : CodePos) : Bool :=
  s.ltb qe && qs.ltb e

/-- Origin of a resolved qualified name (libcst QualifiedNameSource). -/
inductive QNameSource where
  | localSrc
  | importSrc
  | builtinSrc
  deriving DecidableEq

/-- Resolved qualified name (libcst QualifiedName): dotted name plus origin. -/
structure QualifiedName where
  name : String
  source : QNameSource
  deriving DecidableEq

/-! ## DiskCacheRepoManager.calculate_md5 and dirty (tree.py lines 107-114)

The Python code computes `hash(frozenset(md5(Path(p).read_bytes()) for p in
paths))`.  Each `md5(...)` call returns a fresh hashlib HASH object; hashlib
HASH objects define neither `__eq__` nor `__hash__`, so the frozenset hashes
them by object identity (CPython default object hash, derived from the
object address).  The bytes that were digested never influence the value.
We model each md5 call as allocating an object carrying its digested bytes
and a fresh identity, threading an allocation counter for object identities,
and model CPython frozenset hashing modulo 2 ^ 64. -/

/-- Hashlib md5 HASH object: the digested bytes plus the Python object
identity assigned at allocation time. -/
structure MdFiveObj where
  content : List Nat
  objId : Nat
  deriving DecidableEq

/-- Python hash() of a hashlib HASH object: hashlib defines no __hash__, so
CPython falls back to the identity-based default object hash.  The digested
content plays no role. -/
def pyObjectHash (o : MdFiveObj) : Nat := o.objId

/-- Word size of CPython hash arithmetic on a 64-bit build. -/
def W64 : Nat := 2 ^ 64

/-- Per-element mixing step of CPython frozenset hashing. -/
def shuffleBits (h : Nat) : Nat :=
  (((h ^^^ 89869747) ^^^ (h <<< 16)) * 3644798167) % W64

/-- CPython frozenset hash: XOR of shuffled element hashes (order
independent), mixed with the set size and a final avalanche.  The exact
constants are immaterial to the theorems; what matters is that the result is
a deterministic function of the element hashes. -/
def frozensetHash (hs : List Nat) : Nat :=
  let h1 := hs.foldl (fun acc x => acc ^^^ shuffleBits x) 0 % W64
  let h2 := (h1 ^^^ ((hs.length + 1) * 1927868237)) % W64
  let h3 := (h2 ^^^ ((h2 >>> 11) ^^^ (h2 >>> 25))) % W64
  (h3 * 69069 + 907133923) % W64

/-- Allocation of one md5 object per tracked file: each gets the next free
object identity.  Returns the objects and the advanced allocation counter. -/
def mdFiveAll : List (List Nat) → Nat → List MdFiveObj × Nat
  | [], alloc => ([], alloc)
  | f :: fs, alloc =>
    let rest := mdFiveAll fs (alloc + 1)
    (⟨f, alloc⟩ :: rest.1, rest.2)

/-- DiskCacheRepoManager.calculate_md5: hash of the frozenset of freshly
allocated md5 objects of every tracked file.  `files` is the byte content of
each tracked path; `alloc` is the allocation counter.  Returns the
fingerprint and the advanced counter. -/
def calculate_md5 (files : List (List Nat)) (alloc : Nat) : Nat × Nat :=
  let objs := mdFiveAll files alloc
  (frozensetHash (objs.1.map pyObjectHash), objs.2)

/-- DiskCacheRepoManager.dirty: recompute the fingerprint and compare with
the value stored under the cache key "md5" (`none` when absent). -/
def dirty (cached : Option Nat) (files : List (List Nat)) (alloc : Nat) :
    Bool × Nat :=
  let r := calculate_md5 files alloc
  (!(some r.1 == cached), r.2)

/-! ## DiskCacheRepoManager.resolve_cache (tree.py lines 121-138)

The loop writes one disk-cache entry per provider that has a gen_cache
handler and is not already cached, then stores the fingerprint under the
key "md5".  A raising handler propagates (there is no try block); the model
returns the raised error together with the cache state at raise time. -/

/-- Disk-cache key: one per provider, plus the string key "md5". -/
inductive CacheKey (P : Type) where
  | provider (p : P)
  | mdKey
  deriving DecidableEq

/-- Disk-cache value: a provider blob or the stored fingerprint. -/
inductive CacheVal (B : Type) where
  | blob (b : B)
  | fp (n : Nat)
  deriving DecidableEq

/-- Lookup in the disk cache (newest entry for a key wins; dict update is
modelled as a shadowing prepend). -/
def cacheGet {P B : Type} [DecidableEq P]
    (c : List (CacheKey P × CacheVal B)) (k : CacheKey P) :
    Option (CacheVal B) :=
  (c.find? (fun kv => kv.1 == k)).map Prod.snd

/-- Membership test `key in cache`. -/
def cacheContains {P B : Type} [DecidableEq P]
    (c : List (CacheKey P × CacheVal B)) (k : CacheKey P) : Bool :=
  (c.find? (fun kv => kv.1 == k)).isSome

/-- Write of one cache entry (dict item assignment, shadowing prepend). -/
def cacheSet {P B : Type}
    (c : List (CacheKey P × CacheVal B)) (k : CacheKey P) (v : CacheVal B) :
    List (CacheKey P × CacheVal B) :=
  (k, v) :: c

/-- DiskCacheRepoManager.resolve_cache: for each provider in order, skip it
when already cached, skip it when it has no gen_cache handler, otherwise run
the handler; a raising handler aborts the whole resolution (error carries
the failing provider, the raised error and the cache state at raise time).
After the loop the fingerprint is stored under "md5".  `genCache p` is the
outcome of the external provider computation (`none` models a provider
without a gen_cache handler). -/
def resolve_cache {P B E : Type} [DecidableEq P]
    (genCache : P → Option (Except E B)) (fingerprint : Nat) :
    List P → List (CacheKey P × CacheVal B) →
    Except (P × E × List (CacheKey P × CacheVal B))
      (List (CacheKey P × CacheVal B))
  | [], c => .ok (cacheSet c .mdKey (.fp fingerprint))
  | p :: ps, c =>
    if cacheContains c (.provider p) then
      resolve_cache genCache fingerprint ps c
    else
      match genCache p with
      | none => resolve_cache genCache fingerprint ps c
      | some (.error e) => .error (p, e, c)
      | some (.ok b) =>
        resolve_cache genCache fingerprint ps
          (cacheSet c (.provider p) (.blob b))

/-! ## NodeFact graph construction (RepoInfo.get_src_info, tree.py 246-318)

A CST node is identified by its object identity (a Nat).  The provider
metadata consumed by get_src_info is one record per position-bearing node:
its position, its optional inferred-type string, its optional immediate
parent node and its set of resolved qualified names (as a list; set.pop()
takes the head).  The construction loop builds one NodeInfo per entry
(nodes_to_info), then in a second pass drops degenerate positions and
resolves each remaining NodeInfo parent by a single dictionary lookup of
the immediate parent in nodes_to_info, adding the node to the children set
of whatever that lookup returns. -/

/-- Provider metadata for one position-bearing CST node, the per-node input
of RepoInfo.get_src_info (meta_positions, meta_inferred_types, meta_parents
and meta_fully_qualified_names at the key `node`). -/
structure NodeMeta where
  node : Nat
  code_start : CodePos
  code_end : CodePos
  inferred_type : Option String
  parent : Option Nat
  fqns : List QualifiedName
  deriving DecidableEq

/-- One built NodeFact (dataclass NodeInfo in tree.py).  The CST node is its
identity; parent pointers and children sets are kept alongside (parent_of,
children_of) since in Python they are object references filled by mutation. -/
structure NodeInfo where
  node : Nat
  code_start : CodePos
  code_end : CodePos
  inferred_type : Option String
  fqn : Option QualifiedName
  deriving DecidableEq

/-- Construction of one NodeInfo from one metadata record, mirroring the
first loop of get_src_info: the inferred type is kept only when the raw
string is truthy (non-empty), the qualified name is set.pop() of the
resolved set when non-empty. -/
def mkNodeInfo (m : NodeMeta) : NodeInfo :=
  { node := m.node
    code_start := m.code_start
    code_end := m.code_end
    inferred_type :=
      match m.inferred_type with
      | none => none
      | some s => if s = "" then none else some s
    fqn := m.fqns.head? }

/-- Lookup of the metadata record of a node id (dictionary access keyed by
the CST node). -/
def findMeta (meta : List NodeMeta) (id : Nat) : Option NodeMeta :=
  meta.find? (fun m => m.node == id)

/-- The nodes_to_info dictionary: every position-bearing node, degenerate
positions included, maps to its NodeInfo. -/
def nodes_to_info (meta : List NodeMeta) (id : Nat) : Option NodeInfo :=
  (findMeta meta id).map mkNodeInfo

/-- Metadata records that survive the degenerate filter (`pos[0] == pos[1]`
groups are dropped in the second loop of get_src_info). -/
def retainedMeta (meta : List NodeMeta) : List NodeMeta :=
  meta.filter (fun m => m.code_start != m.code_end)

/-- Parent resolution of the second loop: `nodes_to_info.get(node.parent)`,
a single lookup of the immediate syntax-level parent among all
position-bearing nodes (retained or not); no upward walk. -/
def resolved_parent (meta : List NodeMeta) (m : NodeMeta) : Option NodeInfo :=
  m.parent.bind (nodes_to_info meta)

/-- The NodeInfo set of the built index (node_infos in tree.py, flattened). -/
def node_infos (meta : List NodeMeta) : List NodeInfo :=
  (retainedMeta meta).map mkNodeInfo

/-- Children set of the node with id `q` after the second loop: every
retained node whose resolved parent is the NodeInfo of `q`. -/
def children_of (meta : List NodeMeta) (q : Nat) : List NodeInfo :=
  ((retainedMeta meta).filter
    (fun m => ((resolved_parent meta m).map NodeInfo.node) == some q)).map
    mkNodeInfo

/-- Resolved parent pointer of a retained node id after the second loop
(none for ids that are not retained: their NodeInfo parent field is never
rewritten by the loop). -/
def parent_of (meta : List NodeMeta) (id : Nat) : Option Nat :=
  ((retainedMeta meta).find? (fun m => m.node == id)).bind
    (fun m => (resolved_parent meta m).map NodeInfo.node)

/-- Immediate syntax-level parent of a node id, straight from the provider
metadata. -/
def rawParent (meta : List NodeMeta) (id : Nat) : Option Nat :=
  (findMeta meta id).bind NodeMeta.parent

/-- Whether a node id survives the degenerate filter. -/
def isRetainedId (meta : List NodeMeta) (id : Nat) : Bool :=
  ((retainedMeta meta).find? (fun m => m.node == id)).isSome

/-- Nearest retained ancestor of a node id along the raw syntax parent
chain, skipping discarded (degenerate) intermediate nodes.  This definition
follows the words of the specification (spec section 4.2 step 4); it is the
claimed behaviour, to be compared against parent_of, which is what the code
computes.  The fuel bounds the upward walk. -/
def nearestRetainedAncestor (meta : List NodeMeta) :
    Nat → Nat → Option Nat
  | 0, _ => none
  | fuel + 1, id =>
    match rawParent meta id with
    | none => none
    | some p =>
      if isRetainedId meta p then some p
      else nearestRetainedAncestor meta fuel p

/-! ## Ancestor traversal (NodeInfo.iter_parents, tree.py 416-420)

The Python generator walks `node = node.parent` until the parent is None.
The loop is modelled with fuel; the termination theorem shows that under
tree-shaped metadata a fuel of `meta.length + 1` always reaches the root. -/

/-- Fuel-bounded unfolding of the parent chain of a node id under a parent
pointer function. -/
def iterParentsAux (pf : Nat → Option Nat) : Nat → Nat → List Nat
  | 0, _ => []
  | fuel + 1, n =>
    match pf n with
    | none => []
    | some p => p :: iterParentsAux pf fuel p

/-- NodeInfo.iter_parents on the built index: successive resolved parents
of a node id, with fuel sufficient for any tree over the metadata. -/
def iter_parents (meta : List NodeMeta) (n : Nat) : List Nat :=
  iterParentsAux (parent_of meta) (meta.length + 1) n

/-- Checks that a list is exactly the complete parent chain of `n`: each
element is the parent of the previous one and the last element has no
parent (the root). -/
def isParentChain (pf : Nat → Option Nat) : Nat → List Nat → Bool
  | n, [] => (pf n).isNone
  | n, p :: rest => (pf n == some p) && isParentChain pf p rest

/-! ## Hypotheses on provider metadata

The position and parent providers are external (spec section 6); a real
parse yields a tree whose parent ranges contain their children.  The
following executable checkers state those guarantees so that theorems can
assume them and witnesses can discharge them by evaluation. -/

/-- Every referenced parent has its own metadata record (the position
provider covers all nodes). -/
def checkParentsKnown (meta : List NodeMeta) : Bool :=
  meta.all fun m => m.parent.all fun p => (findMeta meta p).isSome

/-- Every parent range contains the child range. -/
def checkContainment (meta : List NodeMeta) : Bool :=
  meta.all fun m => m.parent.all fun p =>
    (findMeta meta p).all fun mp =>
      mp.code_start.leb m.code_start && m.code_end.leb mp.code_end

/-- Every range has start <= end. -/
def checkRangesOrdered (meta : List NodeMeta) : Bool :=
  meta.all fun m => m.code_start.leb m.code_end

/-- The parent relation decreases a depth measure (the parse is a tree,
not a cyclic graph). -/
def checkDepth (meta : List NodeMeta) (depth : Nat → Nat) : Bool :=
  meta.all fun m => m.parent.all fun p => depth p < depth m.node

/-- The depth measure is bounded by the number of metadata records, as tree
depth is bounded by node count. -/
def checkDepthBound (meta : List NodeMeta) (depth : Nat → Nat) : Bool :=
  meta.all fun m => depth m.node ≤ meta.length

/-- Non-strict range containment between built NodeInfos. -/
def containsB (p n : NodeInfo) : Bool :=
  p.code_start.leb n.code_start && n.code_end.leb p.code_end

/-- Strict containment as claimed by the specification invariant: contains,
and strict in at least one bound. -/
def strictContainsB (p n : NodeInfo) : Bool :=
  containsB p n && (p.code_start != n.code_start || p.code_end != n.code_end)

/-- The claimed parent-range invariant of a built index (spec section 8):
every retained node with a resolved parent has its range strictly contained
in the parent range. -/
def checkStrictParents (meta : List NodeMeta) : Bool :=
  (retainedMeta meta).all fun m =>
    (resolved_parent meta m).all fun pi => strictContainsB pi (mkNodeInfo m)

/-! ## SourceFileInfo and its query surface (tree.py 321-402)

The observable state of a built SourceFileInfo is its raw line list, its
NodeInfo set, its interval tree and its qualified-name dictionary.  The
dictionary is a defaultdict(set): a missing-key access inserts an empty
entry, so it is modelled as an association list that grows on a miss.
Query methods are embedded in state-passing style (self in, self out). -/

/-- Key of the qualified_names_to_node_infos dictionary.  Keys are
QualifiedName values; the NodeInfo branch of occurences_of_name uses the
NodeInfo itself as the key, so both shapes can occur. -/
inductive QKey where
  | qn (q : QualifiedName)
  | ninfo (n : NodeInfo)
  deriving DecidableEq

/-- Argument of occurences_of_name (`name: str | NodeInfo`). -/
inductive NameArg where
  | str (s : String)
  | ninfo (n : NodeInfo)

/-- Python exceptions that the query surface can raise. -/
inductive PyErr where
  | stopIteration
  | attributeError
  deriving DecidableEq

/-- One interval-tree entry: a range and the set of NodeInfos grouped at
exactly that range. -/
structure Ivl where
  start : CodePos
  stop : CodePos
  data : List NodeInfo
  deriving DecidableEq

/-- Splitting of a character list at newline characters, accumulating the
current chunk in reverse. -/
def splitLinesAux : List Char → List Char → List String
  | [], acc => [String.mk acc.reverse]
  | c :: cs, acc =>
    if c = '\n' then String.mk acc.reverse :: splitLinesAux cs []
    else splitLinesAux cs (c :: acc)

/-- Python str.splitlines restricted to newline separators: no trailing
empty piece, empty string gives the empty list. -/
def pySplitlines (s : String) : List String :=
  match s.toList with
  | [] => []
  | cs =>
    if cs.getLast? = some '\n' then (splitLinesAux cs []).dropLast
    else splitLinesAux cs []

/-- Python str.join. -/
def pyJoin (sep : String) : List String → String
  | [] => ""
  | [x] => x
  | x :: xs => x ++ sep ++ pyJoin sep xs

/-- The _lines field of SourceFileInfo: a padding empty string followed by
the split source, so that indexing is 1-based. -/
def mkLines (code : String) : List String :=
  "" :: pySplitlines code

/-- Python string slice s[a:b] for non-negative bounds (clamping, empty on
a reversed slice). -/
def pyStrSlice (s : String) (a b : Nat) : String :=
  String.mk ((s.toList.drop a).take (b - a))

/-- Python list slice l[a:b] for non-negative bounds. -/
def pyListSlice {α : Type} (l : List α) (a b : Nat) : List α :=
  (l.drop a).take (b - a)

/-- Observable state of one built SourceFileInfo. -/
structure SourceFileInfo where
  lines : List String
  node_infos : List NodeInfo
  tree : List Ivl
  qnMap : List (QKey × List NodeInfo)
  deriving DecidableEq

/-- SourceFileInfo.code_at: a same-line range slices one source line by
column; a multi-line range joins the line slice
_lines[start.line : end.line] with newlines.  The method only reads
self._lines; the state is returned unchanged. -/
def SourceFileInfo.code_at (st : SourceFileInfo) (s e : CodePos) :
    String × SourceFileInfo :=
  (if s.line = e.line then
    pyStrSlice (st.lines.getD s.line "") s.column e.column
  else
    pyJoin "\n" (pyListSlice st.lines s.line e.line), st)

/-- Behaviour of textAt as the specification words it (spec section 4.3):
same-line ranges slice a single line by column; multi-line ranges join the
whole lines of the range, the column offset of the end line not applied.
This is the claimed behaviour, to be compared with code_at. -/
def spec_code_at (lines : List String) (s e : CodePos) : String :=
  if s.line = e.line then
    pyStrSlice (lines.getD s.line "") s.column e.column
  else
    pyJoin "\n" (pyListSlice lines s.line (e.line + 1))

/-- SourceFileInfo.intervals_at: point query tree.at(start) when no end is
given, else range query tree.overlap(start, end).  Read-only. -/
def SourceFileInfo.intervals_at (st : SourceFileInfo) (s : CodePos)
    (e : Option CodePos) : List Ivl × SourceFileInfo :=
  match e with
  | none => (st.tree.filter (fun iv => posContains iv.start iv.stop s), st)
  | some e' =>
    (st.tree.filter (fun iv => overlapsB iv.start iv.stop s e'), st)

/-- SourceFileInfo.nodes_at: the union of the payload sets of the intervals
at the query.  Read-only. -/
def SourceFileInfo.nodes_at (st : SourceFileInfo) (s : CodePos)
    (e : Option CodePos) : List NodeInfo × SourceFileInfo :=
  ((st.intervals_at s e).1.foldr (fun iv acc => iv.data ++ acc) [], st)

/-- The generator expression of occurences_of_name for a string argument:
`next(ni for ni in self.qualified_names_to_node_infos if ni.name == name)`
iterates the dictionary keys; an exhausted generator raises StopIteration,
and a NodeInfo key (possible after a NodeInfo-keyed insertion) has no
attribute `name`, raising AttributeError. -/
def findKeyByName : List QKey → String → Except PyErr QualifiedName
  | [], _ => .error .stopIteration
  | .qn q :: rest, s => if q.name = s then .ok q else findKeyByName rest s
  | .ninfo _ :: _, _ => .error .attributeError

/-- Predicate on the dictionary keys: every key is a QualifiedName and
none of them bears the given name — the name-query-miss situation. -/
def noKeyNamed (keys : List QKey) (s : String) : Bool :=
  keys.all fun k =>
    match k with
    | .qn q => q.name != s
    | .ninfo _ => false

/-- defaultdict(set).__getitem__: a present key returns its entry and
leaves the dictionary unchanged; a missing key inserts a fresh empty entry
and returns it. -/
def ddGet (m : List (QKey × List NodeInfo)) (k : QKey) :
    List NodeInfo × List (QKey × List NodeInfo) :=
  match m.find? (fun kv => kv.1 == k) with
  | some kv => (kv.2, m)
  | none => ([], m ++ [(k, [])])

/-- defaultdict(set) accumulation used by the SourceFileInfo constructor:
append one NodeInfo to the entry of its key, creating the entry if needed. -/
def ddAppend (m : List (QKey × List NodeInfo)) (k : QKey) (ni : NodeInfo) :
    List (QKey × List NodeInfo) :=
  if (m.find? (fun kv => kv.1 == k)).isSome then
    m.map (fun kv => if kv.1 == k then (kv.1, kv.2 ++ [ni]) else kv)
  else m ++ [(k, [ni])]

/-- Construction of qualified_names_to_node_infos (tree.py 331-334): every
NodeInfo with a non-none qualified name is grouped under it. -/
def mkQnMap (infos : List NodeInfo) : List (QKey × List NodeInfo) :=
  infos.foldl
    (fun m ni =>
      match ni.fqn with
      | none => m
      | some q => ddAppend m (.qn q) ni) []

/-- SourceFileInfo.occurences_of_name: a string argument is first mapped to
a dictionary key whose name matches (raising StopIteration when none does),
a NodeInfo argument is used as the key directly; the defaultdict is then
indexed with that key.  An error models the exception propagating with the
state it left behind (the exception fires before any dictionary write). -/
def SourceFileInfo.occurences_of_name (st : SourceFileInfo) (arg : NameArg) :
    Except PyErr (List NodeInfo × SourceFileInfo) :=
  match arg with
  | .str s =>
    match findKeyByName (st.qnMap.map Prod.fst) s with
    | .error e => .error e
    | .ok q =>
      let r := ddGet st.qnMap (.qn q)
      .ok (r.1, { st with qnMap := r.2 })
  | .ninfo n =>
    let r := ddGet st.qnMap (.ninfo n)
    .ok (r.1, { st with qnMap := r.2 })

/-- Loop body of minimal_node_from_set: the accumulator is the seen-parents
set and the running minimum; the candidate becomes the minimum when it is
not in the seen set, and all its ancestors join the seen set. -/
def mnfsStep (pf : Nat → Option Nat) (fuel : Nat)
    (acc : List Nat × Option Nat) (n : Nat) : List Nat × Option Nat :=
  (acc.1 ++ iterParentsAux pf fuel n, if n ∈ acc.1 then acc.2 else some n)

/-- SourceFileInfo.minimal_node_from_set on node ids: fold the loop body
over the candidates (in set iteration order) and return the running
minimum.  `pf` is the resolved parent pointer function of the owning index,
`fuel` bounds the ancestor walks. -/
def minimal_node_from_set_core (pf : Nat → Option Nat) (fuel : Nat)
    (nodes : List Nat) : Option Nat :=
  (nodes.foldl (mnfsStep pf fuel) ([], none)).2

/-- SourceFileInfo.minimal_node_from_set in state-passing style: the method
only reads the parent pointers stored in the NodeInfo objects. -/
def SourceFileInfo.minimal_node_from_set (st : SourceFileInfo)
    (pf : Nat → Option Nat) (fuel : Nat) (nodes : List Nat) :
    Option Nat × SourceFileInfo :=
  (minimal_node_from_set_core pf fuel nodes, st)

/-- Distinct ranges of the retained metadata, in first-occurrence order:
the keys of the node_infos grouping dictionary. -/
def rangesOf (meta : List NodeMeta) : List (CodePos × CodePos) :=
  ((retainedMeta meta).map (fun m => (m.code_start, m.code_end))).dedup

/-- The interval tree built by get_src_info: one entry per distinct
retained range, holding the NodeInfos grouped at that range. -/
def treeOf (meta : List NodeMeta) : List Ivl :=
  (rangesOf meta).map fun r =>
    { start := r.1
      stop := r.2
      data := ((retainedMeta meta).filter
        (fun m => (m.code_start, m.code_end) == r)).map mkNodeInfo }

/-- Assembly of a SourceFileInfo from the provider metadata and the raw
source text (get_src_info tail plus the SourceFileInfo constructor). -/
def build (meta : List NodeMeta) (code : String) : SourceFileInfo :=
  { lines := mkLines code
    node_infos := node_infos meta
    tree := treeOf meta
    qnMap := mkQnMap (node_infos meta) }

/-! ## RepoInfo.get_src_info memoization (tree.py 246-253)

The method carries `@lru_cache(maxsize=512)`: the memo key is the path
argument alone.  The body reads the file and runs parsing, provider
resolution and graph construction, abstracted here as a function `builder`
of the current bytes of the file (eviction at 512 entries is not modelled;
the claims do not exercise it). -/

/-- World state of a RepoInfo: the bytes of every tracked file on disk and
the lru_cache memo of get_src_info. -/
structure RepoState (Idx : Type) where
  files : List (String × List Nat)
  memo : List (String × Idx)

/-- Read of the current bytes of a tracked file. -/
def readFile (files : List (String × List Nat)) (path : String) :
    List Nat :=
  ((files.find? (fun kv => kv.1 == path)).map Prod.snd).getD []

/-- RepoInfo.get_src_info: return the memoized index when the path has an
entry — without looking at the file — otherwise build from the current
bytes and memoize under the path. -/
def get_src_info {Idx : Type} (builder : List Nat → Idx)
    (st : RepoState Idx) (path : String) : Idx × RepoState Idx :=
  match st.memo.find? (fun kv => kv.1 == path) with
  | some kv => (kv.2, st)
  | none =>
    let idx := builder (readFile st.files path)
    (idx, ⟨st.files, st.memo ++ [(path, idx)]⟩)

/-! ## Concrete inputs used by witnesses and counterexamples -/

/-- Retained root node of the degenerate-intermediate example. -/
def mDeg0 : NodeMeta := ⟨0, ⟨1, 0⟩, ⟨5, 0⟩, none, none, []⟩

/-- Degenerate (empty-range) intermediate node, discarded by the filter. -/
def mDeg1 : NodeMeta := ⟨1, ⟨2, 0⟩, ⟨2, 0⟩, none, some 0, []⟩

/-- Retained node whose immediate parent is the degenerate node. -/
def mDeg2 : NodeMeta := ⟨2, ⟨2, 0⟩, ⟨2, 3⟩, none, some 1, []⟩

/-- Metadata with a degenerate node sitting between two retained ones. -/
def metaDeg : List NodeMeta := [mDeg0, mDeg1, mDeg2]

/-- Wrapper node of the identical-range example (an expression node that
wraps exactly one name occupies the same range as the name). -/
def mEq0 : NodeMeta := ⟨0, ⟨1, 0⟩, ⟨1, 5⟩, none, none, []⟩

/-- Wrapped node with the same range as its parent. -/
def mEq1 : NodeMeta := ⟨1, ⟨1, 0⟩, ⟨1, 5⟩, none, some 0, []⟩

/-- Metadata in which a parent and its child share one range. -/
def metaEq : List NodeMeta := [mEq0, mEq1]

/-- Root of a small well-formed three-node chain. -/
def mW0 : NodeMeta := ⟨0, ⟨1, 0⟩, ⟨3, 0⟩, none, none, []⟩

/-- Middle node of the chain. -/
def mW1 : NodeMeta := ⟨1, ⟨1, 0⟩, ⟨2, 0⟩, none, some 0, []⟩

/-- Leaf of the chain. -/
def mW2 : NodeMeta := ⟨2, ⟨1, 0⟩, ⟨1, 5⟩, none, some 1, []⟩

/-- Well-formed metadata: a three-node chain with proper containment. -/
def metaW : List NodeMeta := [mW0, mW1, mW2]

/-- Root node of the qualified-name example (no qualified name). -/
def mQ0 : NodeMeta := ⟨0, ⟨1, 0⟩, ⟨2, 5⟩, none, none, []⟩

/-- Name node resolved to the qualified name m.x. -/
def mQ1 : NodeMeta := ⟨1, ⟨1, 0⟩, ⟨1, 1⟩, none, some 0, [⟨"m.x", .localSrc⟩]⟩

/-- Metadata with one qualified-name-bearing node. -/
def metaQ : List NodeMeta := [mQ0, mQ1]

/-- A built SourceFileInfo whose name index has exactly the key m.x. -/
def stQ : SourceFileInfo := build metaQ "x = 1\ny = 2"

/-- A node-free built index over three source lines. -/
def stLines : SourceFileInfo := build [] "abc\ndef\nghi"

/-- Concrete parent pointer function: 2 -> 1 -> 0 -> root. -/
def pfW : Nat → Option Nat :=
  fun n => if n = 2 then some 1 else if n = 1 then some 0 else none

/-- Concrete provider outcomes: provider 0 succeeds with blob 10,
every other provider raises error 7. -/
def gcW : Nat → Option (Except Nat Nat) :=
  fun p => if p = 0 then some (.ok 10) else some (.error 7)

/-! ## Order lemmas for CodePos -/

lemma CodePos.eq_iff {a b : CodePos} :
    a = b ↔ (a.line = b.line ∧ a.column = b.column) := by
  constructor
  · rintro rfl
    exact ⟨rfl, rfl⟩
  · rcases a with ⟨al, ac⟩
    rcases b with ⟨bl, bc⟩
    rintro ⟨h1, h2⟩
    rw [CodePos.mk.injEq]
    exact ⟨h1, h2⟩

lemma CodePos.ltb_iff (a b : CodePos) :
    a.ltb b = true ↔
      (a.line < b.line ∨ (a.line = b.line ∧ a.column < b.column)) := by
  rcases a with ⟨al, ac⟩
  rcases b with ⟨bl, bc⟩
  simp only [CodePos.ltb]
  split_ifs with h1 h2 <;> simp_all

lemma CodePos.leb_iff (a b : CodePos) :
    a.leb b = true ↔
      (a.line < b.line ∨ (a.line = b.line ∧ a.column ≤ b.column)) := by
  rw [CodePos.leb, Bool.or_eq_true, CodePos.ltb_iff, beq_iff_eq,
    CodePos.eq_iff]
  omega

lemma CodePos.leb_ltb_trans {a b c : CodePos} (h1 : a.leb b = true)
    (h2 : b.ltb c = true) : a.ltb c = true := by
  rw [CodePos.leb_iff] at h1
  rw [CodePos.ltb_iff] at h2 ⊢
  omega

lemma CodePos.ltb_leb_trans {a b c : CodePos} (h1 : a.ltb b = true)
    (h2 : b.leb c = true) : a.ltb c = true := by
  rw [CodePos.ltb_iff] at h1 ⊢
  rw [CodePos.leb_iff] at h2
  omega

lemma CodePos.ltb_of_leb_of_ne {a b : CodePos} (h1 : a.leb b = true)
    (h2 : a ≠ b) : a.ltb b = true := by
  rw [CodePos.leb_iff] at h1
  rw [CodePos.ltb_iff]
  have h2' : ¬(a.line = b.line ∧ a.column = b.column) := fun hc =>
    h2 (CodePos.eq_iff.mpr hc)
  omega

lemma CodePos.ne_of_ltb {a b : CodePos} (h : a.ltb b = true) : a ≠ b := by
  rw [CodePos.ltb_iff] at h
  intro he
  subst he
  omega

/-! ## List and construction lemmas -/

lemma find_self_of_nodup :
    ∀ {l : List NodeMeta}, (l.map NodeMeta.node).Nodup →
      ∀ {m : NodeMeta}, m ∈ l →
        l.find? (fun x => x.node == m.node) = some m := by
  intro l
  induction l with
  | nil => simp
  | cons a t ih =>
    intro hnod m hm
    rw [List.map_cons, List.nodup_cons] at hnod
    rcases List.mem_cons.mp hm with rfl | hmt
    · simp [List.find?_cons]
    · rw [List.find?_cons_of_neg]
      · exact ih hnod.2 hmt
      · simp only [beq_iff_eq]
        intro he
        exact hnod.1 (he ▸ List.mem_map_of_mem NodeMeta.node hmt)

lemma retained_nodup_ids {meta : List NodeMeta}
    (h : (meta.map NodeMeta.node).Nodup) :
    ((retainedMeta meta).map NodeMeta.node).Nodup :=
  ((List.filter_sublist _).map NodeMeta.node).nodup h

lemma mem_meta_of_mem_retained {meta : List NodeMeta} {m : NodeMeta}
    (hm : m ∈ retainedMeta meta) : m ∈ meta :=
  (List.mem_filter.mp hm).1

lemma retained_ne {meta : List NodeMeta} {m : NodeMeta}
    (hm : m ∈ retainedMeta meta) : m.code_start ≠ m.code_end := by
  have := (List.mem_filter.mp hm).2
  simpa using this

/-- Core consequence of the external-parser guarantees: the immediate
parent of a retained node has a metadata record, its range contains the
child range, and it is itself retained. -/
lemma retained_parent_facts {meta : List NodeMeta}
    (hknown : checkParentsKnown meta = true)
    (hcont : checkContainment meta = true)
    (hord : checkRangesOrdered meta = true)
    {m : NodeMeta} (hm : m ∈ retainedMeta meta) {p : Nat}
    (hp : m.parent = some p) :
    ∃ mp, findMeta meta p = some mp ∧ mp.node = p ∧
      mp ∈ retainedMeta meta ∧
      mp.code_start.leb m.code_start = true ∧
      m.code_end.leb mp.code_end = true := by
  have hmem : m ∈ meta := mem_meta_of_mem_retained hm
  rw [checkParentsKnown, List.all_eq_true] at hknown
  have h1 := hknown m hmem
  rw [hp] at h1
  simp only [Option.all_some] at h1
  obtain ⟨mp, hmp⟩ := Option.isSome_iff_exists.mp h1
  have hpnode : mp.node = p := by simpa using List.find?_some hmp
  have hmpmem : mp ∈ meta := List.mem_of_find?_eq_some hmp
  rw [checkContainment, List.all_eq_true] at hcont
  have h2 := hcont m hmem
  rw [hp] at h2
  simp only [Option.all_some, hmp, Bool.and_eq_true] at h2
  rw [checkRangesOrdered, List.all_eq_true] at hord
  have h3 := hord m hmem
  have hlt : m.code_start.ltb m.code_end = true :=
    CodePos.ltb_of_leb_of_ne h3 (retained_ne hm)
  have hplt : mp.code_start.ltb mp.code_end = true :=
    CodePos.ltb_leb_trans (CodePos.leb_ltb_trans h2.1 hlt) h2.2
  have hpret : mp ∈ retainedMeta meta := by
    rw [retainedMeta, List.mem_filter]
    exact ⟨hmpmem, by simpa using CodePos.ne_of_ltb hplt⟩
  exact ⟨mp, hmp, hpnode, hpret, h2.1, h2.2⟩

/-! ## Claim C1 -/

/-- Claim C1 (code bug): the fingerprint of calculate_md5 is a function of
the identities of freshly allocated md5 objects, not of the file bytes.
With one tracked file whose bytes never change, a fingerprint stored at
resolution time and recomputed immediately afterwards (the md5 objects now
carrying fresh identities) compare unequal, so dirty reports true; and two
fingerprints computed over different file bytes at the same allocation
state are identical.  The claim asserts determinism over bytes and a cache
hit on rebuild; the code delivers neither. -/
theorem c1_fingerprint_identity_not_content :
    (dirty (some (calculate_md5 [[104, 105]] 0).1) [[104, 105]]
      (calculate_md5 [[104, 105]] 0).2).1 = true ∧
    (calculate_md5 [[1, 2, 3]] 7).1 = (calculate_md5 [[9]] 7).1 := by
  constructor
  · decide
  · rfl

/-! ## Claim C2 -/

/-- Claim C2 counterexample: starting from an empty memo, get_src_info is
called on path a with bytes [1] (memoizing the index built from [1]); the
file then changes to bytes [2]; the claim says the second call rebuilds
from the changed bytes, but the code returns the stale memoized index and
leaves the memo entry in place.  The builder is the identity on bytes, so
the returned index exposes which bytes it was built from. -/
theorem c2_counterexample :
    (get_src_info (fun b => b)
      ⟨[("a", [2])],
        ((get_src_info (fun b => b) ⟨[("a", [1])], []⟩ "a").2).memo⟩
      "a").1 = [1] ∧
    readFile [("a", [2])] "a" = [2] ∧
    ((get_src_info (fun b => b)
      ⟨[("a", [2])],
        ((get_src_info (fun b => b) ⟨[("a", [1])], []⟩ "a").2).memo⟩
      "a").2).memo = [("a", [1])] := by
  refine ⟨rfl, rfl, rfl⟩

/-- Claim C2 (amended): the memo key of get_src_info is the path alone.
Whenever the memo has an entry for the path, the call returns it and
leaves the state unchanged, and the result is independent of the current
bytes of every tracked file; the content hash plays no part in the key. -/
theorem c2_memo_by_path_only {Idx : Type} (builder : List Nat → Idx)
    (memo : List (String × Idx)) (path : String) (kv : String × Idx)
    (hfind : memo.find? (fun e => e.1 == path) = some kv) :
    ∀ files₁ files₂ : List (String × List Nat),
      get_src_info builder ⟨files₁, memo⟩ path = (kv.2, ⟨files₁, memo⟩) ∧
      (get_src_info builder ⟨files₁, memo⟩ path).1 =
        (get_src_info builder ⟨files₂, memo⟩ path).1 := by
  intro files₁ files₂
  unfold get_src_info
  rw [hfind]
  exact ⟨rfl, rfl⟩

/-- Witness for c2_memo_by_path_only at a concrete memo and two distinct
file states. -/
theorem c2_memo_by_path_only_witness :
    ([("a", (5 : Nat))].find? (fun e => e.1 == "a") = some ("a", 5)) ∧
    get_src_info (fun _ => 0) ⟨[("a", [9])], [("a", 5)]⟩ "a" =
      (5, ⟨[("a", [9])], [("a", 5)]⟩) := by
  refine ⟨by decide, ?_⟩
  exact (c2_memo_by_path_only (fun _ => 0) [("a", 5)] "a" ("a", 5)
    (by decide) [("a", [9])] []).1

/-! ## Claim C9 -/

/-- Claim C9: when a provider computation raises during resolve_cache, the
error propagates (the result is the error case), the failing provider has
no cache entry in the resulting cache state, and the fingerprint key holds
exactly what it held before the call. -/
theorem c9_resolve_cache_failfast {P B E : Type} [DecidableEq P]
    (genCache : P → Option (Except E B)) (fingerprint : Nat) :
    ∀ (ps : List P) (c : List (CacheKey P × CacheVal B)) (p : P) (e : E)
      (c' : List (CacheKey P × CacheVal B)),
      resolve_cache genCache fingerprint ps c = .error (p, e, c') →
      genCache p = some (.error e) ∧
      cacheGet c' (.provider p) = none ∧
      cacheGet c' .mdKey = cacheGet c .mdKey := by
  intro ps
  induction ps with
  | nil =>
    intro c p e c' h
    simp [resolve_cache] at h
  | cons q ps ih =>
    intro c p e c' h
    rw [resolve_cache] at h
    by_cases hc : cacheContains c (.provider q) = true
    · rw [if_pos hc] at h
      exact ih c p e c' h
    · rw [if_neg hc] at h
      rcases hg : genCache q with _ | r
      · rw [hg] at h
        exact ih c p e c' h
      · rcases r with er | b
        · rw [hg] at h
          injection h with h'
          have hq : q = p := congrArg (fun x => x.1) h'
          have he : er = e := congrArg (fun x => x.2.1) h'
          have hcc : c = c' := congrArg (fun x => x.2.2) h'
          subst hq
          subst he
          subst hcc
          refine ⟨hg, ?_, rfl⟩
          rcases hcf : c.find? (fun kv => kv.1 == CacheKey.provider q) with
            _ | kv
          · rw [cacheGet, hcf]
            rfl
          · exact absurd (by rw [cacheContains, hcf]; rfl) hc
        · rw [hg] at h
          have hres := ih _ p e c' h
          refine ⟨hres.1, hres.2.1, ?_⟩
          rw [hres.2.2]
          simp only [cacheSet, cacheGet]
          rw [List.find?_cons_of_neg]
          intro hx
          rw [beq_iff_eq] at hx
          cases hx

/-- Facts about a resolved parent pointer of a retained node id: the
parent id is retained as well and sits strictly higher in the tree. -/
lemma parent_of_some_facts {meta : List NodeMeta} (depth : Nat → Nat)
    (hknown : checkParentsKnown meta = true)
    (hcont : checkContainment meta = true)
    (hord : checkRangesOrdered meta = true)
    (hdepth : checkDepth meta depth = true)
    {id q : Nat} (hq : parent_of meta id = some q) :
    isRetainedId meta q = true ∧ depth q < depth id := by
  rw [parent_of] at hq
  rcases hfind : (retainedMeta meta).find? (fun m => m.node == id) with _ | m
  · rw [hfind] at hq
    simp at hq
  · rw [hfind, Option.some_bind] at hq
    have hmret : m ∈ retainedMeta meta := List.mem_of_find?_eq_some hfind
    have hmid : m.node = id := by simpa using List.find?_some hfind
    rw [resolved_parent] at hq
    rcases hpar : m.parent with _ | p
    · rw [hpar] at hq
      simp at hq
    · rw [hpar, Option.some_bind] at hq
      obtain ⟨mp, hmp, hpnode, hret, hle1, hle2⟩ :=
        retained_parent_facts hknown hcont hord hmret hpar
      rw [nodes_to_info, hmp] at hq
      have hqe : mp.node = q := by simpa [mkNodeInfo] using hq
      constructor
      · rw [isRetainedId, List.find?_isSome]
        exact ⟨mp, hret, by simp [hqe]⟩
      · rw [checkDepth, List.all_eq_true] at hdepth
        have hd := hdepth m (mem_meta_of_mem_retained hmret)
        rw [hpar] at hd
        simp only [Option.all_some, decide_eq_true_eq] at hd
        subst hmid
        rw [← hqe, hpnode]
        exact hd

/-- Under tree-shaped metadata the fuel-bounded parent walk from any
retained node id produces the complete chain whenever the fuel exceeds the
depth of the starting node. -/
lemma chain_of_fuel {meta : List NodeMeta} (depth : Nat → Nat)
    (hknown : checkParentsKnown meta = true)
    (hcont : checkContainment meta = true)
    (hord : checkRangesOrdered meta = true)
    (hdepth : checkDepth meta depth = true) :
    ∀ fuel id : Nat, isRetainedId meta id = true → depth id < fuel →
      isParentChain (parent_of meta) id
        (iterParentsAux (parent_of meta) fuel id) = true := by
  intro fuel
  induction fuel with
  | zero =>
    intro id _ hlt
    omega
  | succ fuel ih =>
    intro id hid hlt
    rcases hp : parent_of meta id with _ | q
    · simp only [iterParentsAux, hp, isParentChain]
      rfl
    · simp only [iterParentsAux, hp, isParentChain]
      obtain ⟨hqret, hqd⟩ :=
        parent_of_some_facts depth hknown hcont hord hdepth hp
      simp only [beq_self_eq_true, Bool.true_and]
      exact ih q hqret (by omega)

/-! ## Claim C5 -/

/-- Claim C5: on an index built from tree-shaped provider metadata (the
contract of the external parser), the chain produced by iter_parents from
any NodeFact of the built index is the complete ancestor chain: each
element is the resolved parent of the previous one, the walk stops exactly
at a NodeFact with no parent, every link is well defined (no failure
mid-chain), and the fuel bound meta.length + 1 shows the loop terminates
after finitely many steps. -/
theorem c5_iter_parents_terminates (meta : List NodeMeta)
    (depth : Nat → Nat)
    (hknown : checkParentsKnown meta = true)
    (hcont : checkContainment meta = true)
    (hord : checkRangesOrdered meta = true)
    (hdepth : checkDepth meta depth = true)
    (hbound : checkDepthBound meta depth = true) :
    ∀ ni ∈ node_infos meta,
      isParentChain (parent_of meta) ni.node
        (iter_parents meta ni.node) = true := by
  intro ni hni
  rw [node_infos] at hni
  obtain ⟨m, hm, rfl⟩ := List.mem_map.mp hni
  have hid : isRetainedId meta (mkNodeInfo m).node = true := by
    rw [isRetainedId]
    exact List.find?_isSome.mpr ⟨m, hm, by simp [mkNodeInfo]⟩
  rw [iter_parents]
  apply chain_of_fuel depth hknown hcont hord hdepth _ _ hid
  rw [checkDepthBound, List.all_eq_true] at hbound
  have hb := hbound m (mem_meta_of_mem_retained hm)
  rw [decide_eq_true_eq] at hb
  simp only [mkNodeInfo]
  omega

/-- Witness for c5_iter_parents_terminates: the three-node chain, with the
identity depth measure; iter_parents from the leaf yields [1, 0] and forms
a complete parent chain. -/
theorem c5_witness :
    checkParentsKnown metaW = true ∧ checkContainment metaW = true ∧
    checkRangesOrdered metaW = true ∧
    checkDepth metaW (fun n => n) = true ∧
    checkDepthBound metaW (fun n => n) = true ∧
    mkNodeInfo mW2 ∈ node_infos metaW ∧
    iter_parents metaW 2 = [1, 0] ∧
    isParentChain (parent_of metaW) 2 (iter_parents metaW 2) = true := by
  refine ⟨by decide, by decide, by decide, by decide, by decide, by decide,
    by decide, ?_⟩
  exact c5_iter_parents_terminates metaW (fun n => n) (by decide)
    (by decide) (by decide) (by decide) (by decide) (mkNodeInfo mW2)
    (by decide)

/-! ## Claim C3 -/

/-- Claim C3 counterexample: node 2 is retained, its immediate parent
node 1 is degenerate (discarded), and the nearest retained ancestor of
node 2 is node 0; the claim says the parent pointer of node 2 resolves to
node 0 by walking upward over the discarded node, but the code performs a
single lookup and resolves it to the discarded node 1, and node 2 joins
the children set of node 1, not of node 0. -/
theorem c3_counterexample :
    parent_of metaDeg 2 = some 1 ∧
    isRetainedId metaDeg 1 = false ∧
    nearestRetainedAncestor metaDeg (metaDeg.length + 1) 2 = some 0 ∧
    parent_of metaDeg 2 ≠
      nearestRetainedAncestor metaDeg (metaDeg.length + 1) 2 ∧
    mkNodeInfo mDeg2 ∉ children_of metaDeg 0 ∧
    mkNodeInfo mDeg2 ∈ children_of metaDeg 1 := by
  refine ⟨rfl, rfl, rfl, by decide, by decide, by decide⟩

/-- Claim C3 (amended): parent resolution is a single dictionary lookup of
the immediate syntax parent among all position-bearing nodes, with no
upward walk over discarded nodes, and the NodeFact joins the children set
of whatever NodeFact that lookup returns; when the metadata is tree shaped
(every referenced parent known, parent ranges containing child ranges,
ranges ordered), the immediate parent of a retained node is itself
retained, so the single lookup coincides with the nearest retained
ancestor. -/
theorem c3_parent_single_lookup (meta : List NodeMeta)
    (hnodup : (meta.map NodeMeta.node).Nodup)
    (hknown : checkParentsKnown meta = true)
    (hcont : checkContainment meta = true)
    (hord : checkRangesOrdered meta = true)
    {m : NodeMeta} (hm : m ∈ retainedMeta meta) {p : Nat}
    (hp : m.parent = some p) :
    ∃ mp, findMeta meta p = some mp ∧ mp.node = p ∧
      mp ∈ retainedMeta meta ∧
      parent_of meta m.node = some p ∧
      mkNodeInfo m ∈ children_of meta p ∧
      ∀ fuel, nearestRetainedAncestor meta (fuel + 1) m.node = some p := by
  obtain ⟨mp, hmp, hpnode, hret, hle1, hle2⟩ :=
    retained_parent_facts hknown hcont hord hm hp
  have hfr : (retainedMeta meta).find? (fun x => x.node == m.node) = some m :=
    find_self_of_nodup (retained_nodup_ids hnodup) hm
  have hrp : resolved_parent meta m = some (mkNodeInfo mp) := by
    rw [resolved_parent, hp, Option.some_bind, nodes_to_info, hmp]
    rfl
  have hpo : parent_of meta m.node = some p := by
    rw [parent_of, hfr, Option.some_bind, hrp]
    simp [mkNodeInfo, hpnode]
  refine ⟨mp, hmp, hpnode, hret, hpo, ?_, ?_⟩
  · rw [children_of]
    refine List.mem_map.mpr ⟨m, ?_, rfl⟩
    rw [List.mem_filter]
    refine ⟨hm, ?_⟩
    rw [hrp]
    simp [mkNodeInfo, hpnode]
  · intro fuel
    have hraw : rawParent meta m.node = some p := by
      rw [rawParent, findMeta,
        find_self_of_nodup hnodup (mem_meta_of_mem_retained hm)]
      exact hp
    have hpr : isRetainedId meta p = true := by
      rw [isRetainedId]
      exact List.find?_isSome.mpr ⟨mp, hret, by simp [hpnode]⟩
    rw [nearestRetainedAncestor, hraw]
    simp [hpr]

/-- Witness for c3_parent_single_lookup: in the three-node chain the leaf
resolves to its immediate (retained) parent, joins its children set, and
that parent is the nearest retained ancestor. -/
theorem c3_witness :
    ((metaW.map NodeMeta.node).Nodup ∧ checkParentsKnown metaW = true ∧
      checkContainment metaW = true ∧ checkRangesOrdered metaW = true ∧
      mW2 ∈ retainedMeta metaW ∧ mW2.parent = some 1) ∧
    parent_of metaW 2 = some 1 ∧
    mkNodeInfo mW2 ∈ children_of metaW 1 ∧
    nearestRetainedAncestor metaW (metaW.length + 1) 2 = some 1 := by
  refine ⟨⟨by decide, by decide, by decide, by decide, by decide,
    by decide⟩, ?_⟩
  obtain ⟨mp, hmp, hpnode, hret, hpo, hch, hnra⟩ :=
    @c3_parent_single_lookup metaW (by decide) (by decide) (by decide)
      (by decide) mW2 (by decide) 1 (by decide)
  exact ⟨hpo, hch, hnra 3⟩

/-! ## Claim C4 -/

/-- Claim C4 counterexample: realistic metadata (all guarantees hold) in
which a parent and its child occupy the identical range — an expression
node wrapping exactly one name; both are retained, the parent pointer
resolves, and strict containment fails, refuting the claimed invariant. -/
theorem c4_counterexample :
    checkParentsKnown metaEq = true ∧ checkContainment metaEq = true ∧
    checkRangesOrdered metaEq = true ∧
    mEq1 ∈ retainedMeta metaEq ∧
    resolved_parent metaEq mEq1 = some (mkNodeInfo mEq0) ∧
    strictContainsB (mkNodeInfo mEq0) (mkNodeInfo mEq1) = false ∧
    checkStrictParents metaEq = false := by
  refine ⟨by decide, by decide, by decide, by decide, rfl, by decide,
    by decide⟩

/-- Claim C4 (amended): under the containment guarantee of the position
provider, every retained NodeFact with a resolved parent has its range
contained in the parent range non-strictly; the two ranges may coincide
in both bounds. -/
theorem c4_parent_range_contains (meta : List NodeMeta)
    (hcont : checkContainment meta = true) :
    ∀ m ∈ retainedMeta meta, ∀ pi : NodeInfo,
      resolved_parent meta m = some pi →
      containsB pi (mkNodeInfo m) = true := by
  intro m hm pi hpi
  rw [resolved_parent] at hpi
  rcases hp : m.parent with _ | p
  · rw [hp] at hpi
    simp at hpi
  · rw [hp, Option.some_bind, nodes_to_info] at hpi
    rcases hf : findMeta meta p with _ | mp
    · rw [hf] at hpi
      simp at hpi
    · rw [hf, Option.map_some'] at hpi
      injection hpi with hpi'
      rw [checkContainment, List.all_eq_true] at hcont
      have h2 := hcont m (mem_meta_of_mem_retained hm)
      rw [hp] at h2
      simp only [Option.all_some, hf, Bool.and_eq_true] at h2
      rw [← hpi']
      simp only [containsB, mkNodeInfo, Bool.and_eq_true]
      exact h2

/-- Witness for c4_parent_range_contains at the identical-range input:
containment holds there, though not strictly. -/
theorem c4_witness :
    checkContainment metaEq = true ∧
    containsB (mkNodeInfo mEq0) (mkNodeInfo mEq1) = true := by
  refine ⟨by decide, ?_⟩
  exact c4_parent_range_contains metaEq (by decide) mEq1 (by decide)
    (mkNodeInfo mEq0) rfl

/-- Witness for c9_resolve_cache_failfast: provider 0 succeeds, provider 1
raises; resolution errors out with provider 0 cached, provider 1 absent
and the fingerprint key untouched. -/
theorem c9_witness :
    resolve_cache gcW 99 [0, 1] ([] : List (CacheKey Nat × CacheVal Nat)) =
      .error (1, 7, [(.provider 0, .blob 10)]) ∧
    cacheGet [((CacheKey.provider 0 : CacheKey Nat),
      (CacheVal.blob 10 : CacheVal Nat))] (.provider 1) = none ∧
    cacheGet [((CacheKey.provider 0 : CacheKey Nat),
      (CacheVal.blob 10 : CacheVal Nat))] .mdKey =
      cacheGet ([] : List (CacheKey Nat × CacheVal Nat)) .mdKey := by
  have h : resolve_cache gcW 99 [0, 1]
      ([] : List (CacheKey Nat × CacheVal Nat)) =
      .error (1, 7, [(.provider 0, .blob 10)]) := by rfl
  exact ⟨h, (c9_resolve_cache_failfast gcW 99 [0, 1] [] 1 7
    [(.provider 0, .blob 10)] h).2.1,
    (c9_resolve_cache_failfast gcW 99 [0, 1] [] 1 7
      [(.provider 0, .blob 10)] h).2.2⟩

/-! ## Claim C6 -/

/-- The candidate that is nobody's ancestor never enters the seen set. -/
lemma mnfs_not_seen {pf : Nat → Option Nat} {fuel d : Nat} :
    ∀ (l : List Nat) (seen : List Nat) (mn : Option Nat),
      d ∉ seen → (∀ x ∈ l, d ∉ iterParentsAux pf fuel x) →
      d ∉ (l.foldl (mnfsStep pf fuel) (seen, mn)).1 := by
  intro l
  induction l with
  | nil =>
    intro seen mn h1 _
    exact h1
  | cons x rest ih =>
    intro seen mn h1 h2
    rw [List.foldl_cons]
    apply ih
    · intro hmem
      rcases List.mem_append.mp hmem with hs | hp
      · exact h1 hs
      · exact h2 x (List.mem_cons_self x rest) hp
    · intro y hy
      exact h2 y (List.mem_cons_of_mem x hy)

/-- Once the deepest candidate holds the running minimum, later candidates
are all already in the seen set (or are the deepest itself), so the
minimum never changes. -/
lemma mnfs_keeps_min {pf : Nat → Option Nat} {fuel d : Nat} :
    ∀ (l : List Nat) (seen : List Nat),
      d ∉ seen → (∀ x ∈ l, d ∉ iterParentsAux pf fuel x) →
      (∀ x ∈ l, x ≠ d → x ∈ seen) →
      (l.foldl (mnfsStep pf fuel) (seen, some d)).2 = some d := by
  intro l
  induction l with
  | nil =>
    intro seen _ _ _
    rfl
  | cons x rest ih =>
    intro seen h1 h2 h3
    rw [List.foldl_cons]
    by_cases hx : x ∈ seen
    · have hstep : mnfsStep pf fuel (seen, some d) x =
          (seen ++ iterParentsAux pf fuel x, some d) := by
        rw [mnfsStep]
        simp [hx]
      rw [hstep]
      apply ih
      · intro hmem
        rcases List.mem_append.mp hmem with hs | hp
        · exact h1 hs
        · exact h2 x (List.mem_cons_self x rest) hp
      · intro y hy
        exact h2 y (List.mem_cons_of_mem x hy)
      · intro y hy hyd
        exact List.mem_append_left _ (h3 y (List.mem_cons_of_mem x hy) hyd)
    · have hxd : x = d := by
        by_contra hne
        exact hx (h3 x (List.mem_cons_self x rest) hne)
      have hstep : mnfsStep pf fuel (seen, some d) x =
          (seen ++ iterParentsAux pf fuel x, some d) := by
        rw [mnfsStep]
        simp [hx, hxd]
      rw [hstep]
      apply ih
      · intro hmem
        rcases List.mem_append.mp hmem with hs | hp
        · exact h1 hs
        · exact h2 x (List.mem_cons_self x rest) hp
      · intro y hy
        exact h2 y (List.mem_cons_of_mem x hy)
      · intro y hy hyd
        exact List.mem_append_left _ (h3 y (List.mem_cons_of_mem x hy) hyd)

/-- Claim C6: minimal_node_from_set returns none on the empty candidate
set, the sole element on a singleton, and on a chain of nested candidates
the deepest one — stated as: the candidate d that is in no candidate
ancestor chain (in particular the candidates are acyclic) and whose
ancestor chain covers every other candidate is returned, whatever the set
iteration order. -/
theorem c6_minimal_node (pf : Nat → Option Nat) (fuel : Nat)
    (nodes : List Nat) (d : Nat) :
    minimal_node_from_set_core pf fuel [] = none ∧
    minimal_node_from_set_core pf fuel [d] = some d ∧
    (d ∈ nodes →
      (∀ x ∈ nodes, d ∉ iterParentsAux pf fuel x) →
      (∀ x ∈ nodes, x ≠ d → x ∈ iterParentsAux pf fuel d) →
      minimal_node_from_set_core pf fuel nodes = some d) := by
  refine ⟨rfl, ?_, ?_⟩
  · rw [minimal_node_from_set_core, List.foldl_cons, mnfsStep]
    simp
  · intro hd hanc hcov
    obtain ⟨l₁, l₂, rfl⟩ := List.append_of_mem hd
    rw [minimal_node_from_set_core, List.foldl_append]
    rcases hp : (l₁.foldl (mnfsStep pf fuel) ([], none)) with ⟨seen₁, mn₁⟩
    have hd₁ : d ∉ seen₁ := by
      have := mnfs_not_seen l₁ [] none (List.not_mem_nil d)
        (fun x hx => hanc x (by simp [hx]))
      rw [hp] at this
      exact this
    rw [List.foldl_cons]
    have hstep : mnfsStep pf fuel (seen₁, mn₁) d =
        (seen₁ ++ iterParentsAux pf fuel d, some d) := by
      rw [mnfsStep]
      simp [hd₁]
    rw [hstep]
    apply mnfs_keeps_min
    · intro hmem
      rcases List.mem_append.mp hmem with hs | hpar
      · exact hd₁ hs
      · exact hanc d hd hpar
    · intro y hy
      exact hanc y (by simp [hy])
    · intro y hy hyd
      exact List.mem_append_right _ (hcov y (by simp [hy]) hyd)

/-- Witness for c6_minimal_node: the chain 2 -> 1 -> 0 queried with the
candidate list [0, 2, 1] returns the deepest candidate 2. -/
theorem c6_witness :
    (2 ∈ [0, 2, 1] ∧
      (∀ x ∈ [0, 2, 1], 2 ∉ iterParentsAux pfW 5 x) ∧
      (∀ x ∈ [0, 2, 1], x ≠ 2 → x ∈ iterParentsAux pfW 5 2)) ∧
    minimal_node_from_set_core pfW 5 [0, 2, 1] = some 2 := by
  refine ⟨⟨by decide, by decide, by decide⟩, ?_⟩
  exact (c6_minimal_node pfW 5 [0, 2, 1] 2).2.2 (by decide) (by decide)
    (by decide)

/-! ## Claim C7 -/

/-- A key scan over QualifiedName keys none of which bears the queried
name exhausts the generator: next() raises StopIteration. -/
lemma findKeyByName_miss :
    ∀ (keys : List QKey) (s : String), noKeyNamed keys s = true →
      findKeyByName keys s = .error .stopIteration := by
  intro keys s h
  induction keys with
  | nil => rfl
  | cons k rest ih =>
    rcases k with q | n
    · simp only [noKeyNamed, List.all_cons, Bool.and_eq_true] at h
      have hne : q.name ≠ s := by simpa using h.1
      simp only [findKeyByName]
      rw [if_neg hne]
      exact ih h.2
    · simp only [noKeyNamed, List.all_cons, Bool.and_eq_true] at h
      exact absurd h.1 (by simp)

/-- Claim C7 counterexample: the built index stQ indexes exactly the
qualified name m.x; querying the name "absent" raises StopIteration
instead of returning an empty result. -/
theorem c7_counterexample :
    stQ.qnMap.map Prod.fst = [QKey.qn ⟨"m.x", .localSrc⟩] ∧
    stQ.occurences_of_name (.str "absent") = .error .stopIteration := by
  exact ⟨by rfl, by rfl⟩

/-- Claim C7 (amended): a name matching no indexed qualified name makes
occurences_of_name raise StopIteration (the next() call exhausts its
generator) rather than return an empty result; the exception fires before
any dictionary access. -/
theorem c7_name_miss_raises (st : SourceFileInfo) (s : String)
    (h : noKeyNamed (st.qnMap.map Prod.fst) s = true) :
    st.occurences_of_name (.str s) = .error .stopIteration := by
  simp only [SourceFileInfo.occurences_of_name]
  rw [findKeyByName_miss _ _ h]

/-- Witness for c7_name_miss_raises at the concrete index stQ and the
unmatched name "zz". -/
theorem c7_witness :
    noKeyNamed (stQ.qnMap.map Prod.fst) "zz" = true ∧
    stQ.occurences_of_name (.str "zz") = .error .stopIteration := by
  refine ⟨by decide, ?_⟩
  exact c7_name_miss_raises stQ "zz" (by decide)

/-! ## Claim C8 -/

/-- Claim C8 counterexample: over the three-line source, the multi-line
range (2,1)-(3,2) yields "def" from code_at — the end line is dropped
entirely — while the claimed behaviour (whole lines of the range joined,
end column not applied) yields "def\nghi" with the final line present. -/
theorem c8_counterexample :
    (stLines.code_at ⟨2, 1⟩ ⟨3, 2⟩).1 = "def" ∧
    spec_code_at stLines.lines ⟨2, 1⟩ ⟨3, 2⟩ = "def\nghi" ∧
    ("def" : String) ≠ "def\nghi" := by
  refine ⟨by rfl, by rfl, by decide⟩

/-- Claim C8 (amended): same-line ranges slice the single source line by
columns; multi-line ranges join the whole lines from start.line up to but
excluding end.line — the end line is dropped entirely, not merely left
untrimmed — and code_at never modifies the index state. -/
theorem c8_code_at_behavior (st : SourceFileInfo) (s e : CodePos) :
    (s.line = e.line →
      (st.code_at s e).1 =
        pyStrSlice (st.lines.getD s.line "") s.column e.column) ∧
    (s.line ≠ e.line →
      (st.code_at s e).1 =
        pyJoin "\n"
          ((st.lines.drop s.line).take (e.line - s.line))) ∧
    (st.code_at s e).2 = st := by
  refine ⟨?_, ?_, rfl⟩
  · intro h
    simp only [SourceFileInfo.code_at]
    rw [if_pos h]
  · intro h
    simp only [SourceFileInfo.code_at]
    rw [if_neg h]
    rfl

/-- Witness for c8_code_at_behavior: a same-line slice and a multi-line
slice over the concrete three-line index. -/
theorem c8_witness :
    (stLines.code_at ⟨2, 1⟩ ⟨2, 3⟩).1 =
      pyStrSlice (stLines.lines.getD 2 "") 1 3 ∧
    (stLines.code_at ⟨2, 1⟩ ⟨3, 2⟩).1 =
      pyJoin "\n" ((stLines.lines.drop 2).take 1) := by
  constructor
  · exact (c8_code_at_behavior stLines ⟨2, 1⟩ ⟨2, 3⟩).1 rfl
  · exact (c8_code_at_behavior stLines ⟨2, 1⟩ ⟨3, 2⟩).2.1 (by decide)

/-! ## Claim C10 -/

/-- A key returned by the name scan is one of the dictionary keys. -/
lemma findKeyByName_mem :
    ∀ (keys : List QKey) (s : String) (q : QualifiedName),
      findKeyByName keys s = .ok q → QKey.qn q ∈ keys := by
  intro keys
  induction keys with
  | nil =>
    intro s q h
    cases h
  | cons k rest ih =>
    intro s q h
    rcases k with q' | n
    · simp only [findKeyByName] at h
      by_cases he : q'.name = s
      · rw [if_pos he] at h
        injection h with h'
        subst h'
        exact List.mem_cons_self _ _
      · rw [if_neg he] at h
        exact List.mem_cons_of_mem _ (ih s q h)
    · simp only [findKeyByName] at h
      cases h

/-- Indexing the defaultdict with one of its existing keys leaves it
unchanged. -/
lemma ddGet_of_key_mem {m : List (QKey × List NodeInfo)} {k : QKey}
    (h : k ∈ m.map Prod.fst) : (ddGet m k).2 = m := by
  simp only [ddGet]
  rcases hf : m.find? (fun kv => kv.1 == k) with _ | kv
  · exfalso
    obtain ⟨kv', hkv', hfst⟩ := List.mem_map.mp h
    have hs : (m.find? (fun kv => kv.1 == k)).isSome :=
      List.find?_isSome.mpr ⟨kv', hkv', by simp [hfst]⟩
    rw [hf] at hs
    simp at hs
  · rw [hf]

/-- Claim C10 counterexample: indexing the name dictionary of the built
index stQ with an absent key (the NodeInfo branch of the query signature)
inserts a fresh empty entry — the lookup mutates the observable name
index, which the claim rules out. -/
theorem c10_counterexample :
    (stQ.qnMap.find?
      (fun kv => kv.1 == QKey.ninfo (mkNodeInfo mQ0))).isSome = false ∧
    stQ.occurences_of_name (.ninfo (mkNodeInfo mQ0)) =
      .ok ([], { stQ with
        qnMap := stQ.qnMap ++ [(QKey.ninfo (mkNodeInfo mQ0), [])] }) ∧
    stQ.qnMap ++ [(QKey.ninfo (mkNodeInfo mQ0), [])] ≠ stQ.qnMap := by
  refine ⟨by rfl, by rfl, ?_⟩
  intro hx
  have hlen := congrArg List.length hx
  simp at hlen

/-- Claim C10 (amended): nodes_at, intervals_at, code_at and
minimal_node_from_set leave the index state untouched, and so does
occurences_of_name on string arguments (a hit indexes an existing key, a
miss raises before any write); only the NodeInfo-argument path can grow
the name index, by inserting an empty entry for an absent key. -/
theorem c10_queries_readonly (st : SourceFileInfo) :
    (∀ s e, (st.intervals_at s e).2 = st) ∧
    (∀ s e, (st.nodes_at s e).2 = st) ∧
    (∀ s e, (st.code_at s e).2 = st) ∧
    (∀ pf fuel nodes, (st.minimal_node_from_set pf fuel nodes).2 = st) ∧
    (∀ s r st', st.occurences_of_name (.str s) = .ok (r, st') →
      st' = st) := by
  refine ⟨?_, fun s e => rfl, fun s e => rfl, fun pf fuel nodes => rfl, ?_⟩
  · intro s e
    rcases e with _ | e'
    · rfl
    · rfl
  · intro s r st' h
    simp only [SourceFileInfo.occurences_of_name] at h
    rcases hf : findKeyByName (st.qnMap.map Prod.fst) s with er | q
    · rw [hf] at h
      cases h
    · rw [hf] at h
      have hdd : (ddGet st.qnMap (.qn q)).2 = st.qnMap :=
        ddGet_of_key_mem (findKeyByName_mem _ s q hf)
      injection h with h'
      have hst : st' = { st with qnMap := (ddGet st.qnMap (.qn q)).2 } :=
        (congrArg Prod.snd h').symm
      rw [hst, hdd]

/-- Witness for c10_queries_readonly: every query on the concrete index
stQ returns the state unchanged, including a string name hit. -/
theorem c10_witness :
    (stQ.intervals_at ⟨1, 0⟩ none).2 = stQ ∧
    (stQ.nodes_at ⟨1, 0⟩ none).2 = stQ ∧
    (stQ.code_at ⟨1, 0⟩ ⟨1, 2⟩).2 = stQ ∧
    (stQ.minimal_node_from_set pfW 5 [1]).2 = stQ ∧
    stQ.occurences_of_name (.str "m.x") = .ok ([mkNodeInfo mQ1], stQ) ∧
    stQ = stQ := by
  refine ⟨(c10_queries_readonly stQ).1 ⟨1, 0⟩ none,
    (c10_queries_readonly stQ).2.1 ⟨1, 0⟩ none,
    (c10_queries_readonly stQ).2.2.1 ⟨1, 0⟩ ⟨1, 2⟩,
    (c10_queries_readonly stQ).2.2.2.1 pfW 5 [1],
    by rfl, ?_⟩
  exact (c10_queries_readonly stQ).2.2.2.2 "m.x" [mkNodeInfo mQ1] stQ
    (by rfl)

end Typescope
